import Mathlib

/-
  Verification development for the `wysiwyg` rich-text editing core of the
  matrix-rich-text-editor repository.

  The snapshot contains two generations of the engine:

  * a "modern" generation (`src/crates/wysiwyg/src/dom/find_range.rs`,
    `src/crates/wysiwyg/src/dom/dom_methods.rs`) in which a `Dom<S>` tree is
    addressed by path handles, ranges are lists of `DomLocation`s, and the
    editing methods (`delete_nodes`, the `split_sub_tree*` family,
    `remove_and_keep_children`, `replace_text_in`) live in `dom_methods.rs`;

  * a "legacy" generation (`src/crates/wysiwyg/src/composer_model.rs`,
    `src/crates/wysiwyg/src/dom.rs`, `src/crates/wysiwyg/src/dom_traverser.rs`)
    in which `ComposerModel` keeps a history of `ComposerState` snapshots and
    `Dom::find_range_mut` resolves selections via `find_pos`.

  Both generations are embedded below, faithful to the Rust source.  Node data
  is modelled as a Lean `String` (the Rust code stores UTF-16 code units; for
  the inputs considered here — ASCII text — lengths and offsets agree).
-/

namespace RichText

/-- A handle is a path of child indices from the document root
    (`DomHandle` in the source; the root has the empty path). -/
abbrev Handle := List Nat

namespace Modern

/-- The node type of the modern generation, as used by `find_range.rs` and the
    `dom_methods.rs` functions modelled here: a text leaf or a container
    element with ordered children.  (`find_range.rs` matches only the `Text`
    and `Container` variants, so the model is restricted to those.)
    The Rust nodes store their own handle; the model recomputes handles from
    paths during traversal, which coincides with the stored handles of a
    well-formed tree. -/
inductive DomNode where
  | text (data : String)
  | container (name : String) (children : List DomNode)

/-- A modern Dom is its document node: a root container with an empty name
    (`Dom::new` wraps the top-level nodes in such a container). -/
def Dom := DomNode

/-- Build a Dom from its top-level children, as `Dom::new` does. -/
def Dom.new (children : List DomNode) : Dom := .container "" children

/-- The children of the document node. -/
def Dom.topChildren : Dom → List DomNode
  | .text _ => []
  | .container _ cs => cs

/-- Look up the node at a path, descending through container children
    (`Dom::lookup_node`; an invalid handle is a fatal error in the source,
    modelled as `none`). -/
def lookupNode : DomNode → Handle → Option DomNode
  | n, [] => some n
  | .text _, _ :: _ => none
  | .container _ cs, i :: rest =>
    match cs.get? i with
    | some c => lookupNode c rest
    | none => none

/-- Children of the node at a path, `[]` if it is a text node or the path is
    invalid. -/
def childrenAt (n : DomNode) (h : Handle) : List DomNode :=
  match lookupNode n h with
  | some (.container _ cs) => cs
  | _ => []

/-- Remove the element at an index from a list (later elements shift down by
    one, exactly as `ContainerNode::remove_child` and sibling handle
    reassignment behave). -/
def removeAt : List DomNode → Nat → List DomNode
  | [], _ => []
  | _ :: cs, 0 => cs
  | c :: cs, i + 1 => c :: removeAt cs i

/-- Replace the element at an index in a list. -/
def setAt : List DomNode → Nat → DomNode → List DomNode
  | [], _, _ => []
  | _ :: cs, 0, n => n :: cs
  | c :: cs, i + 1, n => c :: setAt cs i n

/-- Remove the node at a handle from the tree (`Dom::remove`): the parent
    drops that child and later siblings shift down.  Removing the root or an
    invalid handle is a fatal error in the source; the model leaves the tree
    unchanged there (unreachable in the developments below). -/
def removeNode : DomNode → Handle → DomNode
  | n, [] => n
  | .text d, _ :: _ => .text d
  | .container name cs, [i] => .container name (removeAt cs i)
  | .container name cs, i :: rest =>
    match cs.get? i with
    | some c => .container name (setAt cs i (removeNode c rest))
    | none => .container name cs

/-- Overwrite the data of the text node at a handle
    (`TextNode::set_data` through `lookup_node_mut`). -/
def setTextData : DomNode → Handle → String → DomNode
  | .text _, [], d => .text d
  | .container name cs, [], _ => .container name cs
  | .text d0, _ :: _, _ => .text d0
  | .container name cs, i :: rest, d =>
    match cs.get? i with
    | some c => .container name (setAt cs i (setTextData c rest d))
    | none => .container name cs

mutual

/-- Number of nodes in a tree (used as a fuel bound for the loops below). -/
def nodeCount : DomNode → Nat
  | .text _ => 1
  | .container _ cs => 1 + nodeCountList cs

/-- Number of nodes in a list of trees. -/
def nodeCountList : List DomNode → Nat
  | [] => 0
  | c :: cs => nodeCount c + nodeCountList cs

end

mutual

/-- Height of a tree (fuel bound for the handle-directed split recursion). -/
def nodeHeight : DomNode → Nat
  | .text _ => 1
  | .container _ cs => 1 + nodeHeightList cs

/-- Maximum height over a list of trees. -/
def nodeHeightList : List DomNode → Nat
  | [] => 0
  | c :: cs => max (nodeHeight c) (nodeHeightList cs)

end

mutual

/-- `true` iff no text node in the tree has zero-length data
    (first structural invariant of `dom_methods.rs`). -/
def noEmptyTextNodes : DomNode → Bool
  | .text d => !d.isEmpty
  | .container _ cs => noEmptyTextNodesList cs

/-- List version of `noEmptyTextNodes`. -/
def noEmptyTextNodesList : List DomNode → Bool
  | [] => true
  | c :: cs => noEmptyTextNodes c && noEmptyTextNodesList cs

end

/-- `true` iff some two consecutive elements of the list are both text nodes. -/
def adjacentTextPair : List DomNode → Bool
  | .text _ :: .text _ :: _ => true
  | _ :: rest => adjacentTextPair rest
  | [] => false

mutual

/-- `true` iff some container in the tree (the root included) has two adjacent
    text-node children (violation of the second structural invariant of
    `dom_methods.rs`). -/
def hasAdjacentTextSiblings : DomNode → Bool
  | .text _ => false
  | .container _ cs => adjacentTextPair cs || hasAdjacentTextSiblingsList cs

/-- List version of `hasAdjacentTextSiblings`. -/
def hasAdjacentTextSiblingsList : List DomNode → Bool
  | [] => false
  | c :: cs => hasAdjacentTextSiblings c || hasAdjacentTextSiblingsList cs

end

/-- The two structural invariants asserted by `Dom::assert_invariants`:
    no empty text node and no adjacent text-node siblings. -/
def domInvariants (n : DomNode) : Bool :=
  noEmptyTextNodes n && !hasAdjacentTextSiblings n

mutual

/-- Serialize a node to markup (`ToHtml`): containers print their name as a
    surrounding tag unless the name is empty (the document root), text nodes
    print their data. -/
def toHtml : DomNode → String
  | .text d => d
  | .container name cs =>
    if name = "" then toHtmlList cs
    else "<" ++ name ++ ">" ++ toHtmlList cs ++ "</" ++ name ++ ">"

/-- Serialization of a list of sibling nodes. -/
def toHtmlList : List DomNode → String
  | [] => ""
  | c :: cs => toHtml c ++ toHtmlList cs

end

/-! ### Range resolution: `src/crates/wysiwyg/src/dom/find_range.rs` -/

/-- `DomLocation` (as constructed in `find_range.rs`): how one node intersects
    the queried interval. -/
structure DomLocation where
  node_handle : Handle
  position : Nat
  start_offset : Nat
  end_offset : Nat
  length : Nat
  is_leaf : Bool
deriving DecidableEq, Repr

/-- Tie-break applied to locations of reversed selections.
    Modelled from the spec: `DomLocation::reversed` lives in the absent
    `range.rs`; spec section 7 says reversed selections are "swapped before
    resolution and un-swapped in the result", so the model swaps the start
    and end offsets back. -/
def DomLocation.reversed (l : DomLocation) : DomLocation :=
  { l with start_offset := l.end_offset, end_offset := l.start_offset }

/-- `SameNodeRange`: both ends of the selection fall in one node. -/
structure SameNodeRange where
  node_handle : Handle
  start_offset : Nat
  end_offset : Nat
deriving DecidableEq, Repr

/-- The `Range` returned by `find_range`.  `MultipleNodes` carries the list of
    recorded locations (the absent `range.rs` wraps it in a
    `MultipleNodesRange`). -/
inductive Range where
  | SameNode (r : SameNodeRange)
  | MultipleNodes (locations : List DomLocation)
  | NoNode
deriving DecidableEq, Repr

/-- `process_text_node`: decide whether a text node intersects `[start, end)`
    and advance the running offset by the node's length.  Returns the
    location (if the node is included) and the updated offset. -/
def processTextNode (data : String) (h : Handle) (start e offset : Nat) :
    Option DomLocation × Nat :=
  let nodeLen := data.length
  let nodeStart := offset
  let nodeEnd := nodeStart + nodeLen
  let offset' := offset + nodeLen
  let outsideSelectionRange := start > nodeEnd || e < nodeStart
  let isCursor := start == e
  if outsideSelectionRange
      || (start == nodeEnd && !isCursor)
      || (nodeStart == e && e != 0) then
    (none, offset')
  else
    (some { node_handle := h, position := nodeStart,
            start_offset := max start nodeStart - nodeStart,
            end_offset := min e nodeEnd - nodeStart,
            length := nodeLen, is_leaf := true }, offset')

mutual

/-- `do_find_pos`: depth-first walk carrying the running absolute offset.
    A subtree whose entry offset exceeds `e` is pruned without advancing the
    offset.  For a container, the children are visited in order and then
    (unless the container is the root) a location for the container itself is
    appended (`process_container_node`). -/
def doFindPos (n : DomNode) (h : Handle) (start e offset : Nat) :
    List DomLocation × Nat :=
  if offset > e then ([], offset)
  else
    match n with
    | .text d =>
      match processTextNode d h start e offset with
      | (some loc, offset') => ([loc], offset')
      | (none, offset') => ([], offset')
    | .container _ cs =>
      let r := doFindPosChildren cs h 0 start e offset
      let containerStart := offset
      let containerEnd := r.2
      let containerLen := containerEnd - containerStart
      if h = [] then r
      else
        (r.1 ++ [{ node_handle := h, position := containerStart,
                   start_offset := max start containerStart - containerStart,
                   end_offset := min e containerEnd - containerStart,
                   length := containerLen, is_leaf := false }], r.2)

/-- Visit the children of a container in order, threading the offset; `i` is
    the index of the first child in `cs`. -/
def doFindPosChildren (cs : List DomNode) (h : Handle) (i start e offset : Nat) :
    List DomLocation × Nat :=
  match cs with
  | [] => ([], offset)
  | c :: rest =>
    let r := doFindPos c (h ++ [i]) start e offset
    let r' := doFindPosChildren rest h (i + 1) start e r.2
    (r.1 ++ r'.1, r'.2)

end

/-- `FindResult` of `find_range.rs`. -/
inductive FindResult where
  | Found (locations : List DomLocation)
  | NotFound
deriving DecidableEq, Repr

/-- `find_pos`: run the walk from the document root with offset 0. -/
def findPos (dom : Dom) (start e : Nat) : FindResult :=
  let locations := (doFindPos dom [] start e 0).1
  if locations.isEmpty then .NotFound else .Found locations

/-- `find_range`: empty document gives `NoNode`; a reversed selection is
    swapped before resolution and the returned locations are reversed back;
    exactly one recorded leaf gives the `SameNode` fast path, otherwise all
    recorded locations are returned. -/
def findRange (dom : Dom) (start e : Nat) : Range :=
  if dom.topChildren.isEmpty then .NoNode
  else
    let isReversed := e < start
    let s' := if isReversed then e else start
    let e' := if isReversed then start else e
    match findPos dom s' e' with
    | .Found locations =>
      let leafLocations := locations.filter (·.is_leaf)
      match leafLocations with
      | [l0] =>
        let location := if isReversed then l0.reversed else l0
        .SameNode { node_handle := location.node_handle,
                    start_offset := location.start_offset,
                    end_offset := location.end_offset }
      | _ =>
        .MultipleNodes (if isReversed then locations.map (·.reversed) else locations)
    | .NotFound => .NoNode

/-! ### Node deletion with ancestor pruning: `dom_methods.rs::delete_nodes` -/

/-- Document order on handles.
    Modelled from the spec: the `Ord` instance of the absent `DomHandle` file;
    spec section 3 orders handles "by lexicographic comparison of their
    paths". -/
def handleLe : Handle → Handle → Bool
  | [], _ => true
  | _ :: _, [] => false
  | x :: xs, y :: ys =>
    if x < y then true else if y < x then false else handleLe xs ys

/-- Insert a handle into a list sorted by document order (kept stable, as
    `Vec::sort` is). -/
def insertHandle (h : Handle) : List Handle → List Handle
  | [] => [h]
  | h0 :: rest =>
    if handleLe h h0 then h :: h0 :: rest else h0 :: insertHandle h rest

/-- Sort a list of handles by document order. -/
def sortHandles (hs : List Handle) : List Handle :=
  hs.foldr insertHandle []

/-- `true` iff the node at the handle is a container with no children
    (the emptiness test `parent.children().is_empty()`). -/
def containerEmptyAt (t : DomNode) (h : Handle) : Bool :=
  match lookupNode t h with
  | some (.container _ cs) => cs.isEmpty
  | _ => false

/-- The `delete_nodes` loop: pop the last handle of the working set, skip it
    if it is the root, otherwise remove that node, record it, and enqueue its
    parent when the parent has become empty and is neither still queued nor
    already removed.  The fuel only bounds the loop; the wrapper below passes
    enough for the loop to run to completion. -/
def deleteNodesGo (fuel : Nat) (t : DomNode) (toDelete deleted : List Handle) :
    DomNode × List Handle :=
  match fuel with
  | 0 => (t, deleted)
  | fuel + 1 =>
    match toDelete.getLast? with
    | none => (t, deleted)
    | some h =>
      let rest := toDelete.dropLast
      if h = [] then deleteNodesGo fuel t rest deleted
      else
        let t' := removeNode t h
        let deleted' := deleted ++ [h]
        let parentHandle := h.dropLast
        let toDelete' :=
          if containerEmptyAt t' parentHandle
              && !(rest.contains parentHandle)
              && !(deleted'.contains parentHandle) then
            rest ++ [parentHandle]
          else rest
        deleteNodesGo fuel t' toDelete' deleted'

/-- `Dom::delete_nodes`: sort the working set by document order, then run the
    delete loop.  Returns the modified tree and the list of handles actually
    deleted, in deletion order. -/
def deleteNodes (t : DomNode) (toDelete : List Handle) : DomNode × List Handle :=
  deleteNodesGo (nodeCount t + toDelete.length + 1) t (sortHandles toDelete) []

/-! ### Subtree splitting: `dom_methods.rs::split_sub_tree*` -/

/-- The Rust `usize::MAX`, passed by `split_sub_tree_from` as the (unused,
    since there is no end handle) end offset. -/
def usizeMax : Nat := 2 ^ 64 - 1

/-- `DomHandle::sub_handle_up_to`: the first `depth` components of a path.
    Modelled from the spec: the handle helper file is absent from src; spec
    section 3 defines a handle as the path of child indices, so the prefix of
    length `depth` addresses the ancestor at that depth. -/
def subHandleUpTo (h : Handle) (depth : Nat) : Handle := h.take depth

/-- `sub_handle_up_to_or_none` (defined in `dom_methods.rs`). -/
def subHandleUpToOrNone (h : Handle) (depth : Nat) : Option Handle :=
  if depth ≤ h.length then some (subHandleUpTo h depth) else none

/-- `DomHandle::index_in_parent`: the last path component.
    Modelled from the spec: handle helper absent from src; a handle is the
    path of child indices, so the last component is the index in the parent. -/
def indexInParent (h : Handle) : Nat := (h.getLast?).getD 0

/-- `DomHandle::is_ancestor_of`: proper path prefix.
    Modelled from the spec: handle helper absent from src; spec section 3
    orders/nests handles by their paths. -/
def isAncestorOf (a b : Handle) : Bool := a.isPrefixOf b && !(a == b)

/-- `is_ancestor_or_self` (defined in `dom_methods.rs`). -/
def isAncestorOrSelf (a b : Handle) : Bool := isAncestorOf a b || a == b

/-- `split_sub_tree_at_text_node`: slice the text at the given offset when the
    node is the split start (or its first descendant) and the offset lies in
    `1..=len`; analogously for the end handle; otherwise move the whole node
    into the extracted part.  Returns the modified tree and the nodes for the
    extracted part. -/
def splitSubTreeAtTextNode (t : DomNode) (curHandle : Handle)
    (startOffset endOffset : Nat) (fromHandle : Handle)
    (toHandle : Option Handle) : DomNode × List DomNode :=
  match lookupNode t curHandle with
  | some (.text data) =>
    if (curHandle == fromHandle
          || (isAncestorOf fromHandle curHandle && indexInParent curHandle == 0))
        && (1 ≤ startOffset && startOffset ≤ data.length) then
      let leftData := data.take startOffset
      let rightData := data.drop startOffset
      (setTextData t curHandle leftData,
       if rightData.isEmpty then [] else [.text rightData])
    else if (match toHandle with
             | some th => curHandle == th
             | none => false)
        && (1 ≤ endOffset && endOffset ≤ data.length) then
      let leftData := data.take endOffset
      let rightData := data.drop endOffset
      (setTextData t curHandle leftData,
       if rightData.isEmpty then [] else [.text rightData])
    else
      (removeNode t curHandle, [.text data])
  | _ => (t, [])

mutual

/-- `split_sub_tree_at_index`: dispatch on the node at the current handle
    (container or text).  All recursion is driven by a fuel counter so the
    definitions compute; the wrappers pass ample fuel.  Exhausted fuel and
    invalid handles (fatal errors in the source) return the tree unchanged. -/
def splitSubTreeAtIndex : Nat → DomNode → Handle → Nat → Nat → Handle →
    Option Handle → DomNode × List DomNode
  | 0, t, _, _, _, _, _ => (t, [])
  | fuel + 1, t, curHandle, startOffset, endOffset, fromHandle, toHandle =>
    match lookupNode t curHandle with
    | some (.container _ _) =>
      splitSubTreeAtContainer fuel t curHandle startOffset endOffset fromHandle
        toHandle
    | some (.text _) =>
      splitSubTreeAtTextNode t curHandle startOffset endOffset fromHandle
        toHandle
    | none => (t, [])
termination_by structural fuel => fuel

/-- `split_sub_tree_at_container`: recurse into the children between the
    first index on the path of the split start and the last index on the path
    of the split end (processed in reverse so removals do not shift pending
    indices), then clone the container for the extracted part and prune it
    from the remaining tree if the split emptied it. -/
def splitSubTreeAtContainer : Nat → DomNode → Handle → Nat → Nat → Handle →
    Option Handle → DomNode × List DomNode
  | 0, t, _, _, _, _, _ => (t, [])
  | fuel + 1, t, curHandle, startOffset, endOffset, fromHandle, toHandle =>
    let depth := curHandle.length
    let minChildIndex :=
      if isAncestorOrSelf curHandle fromHandle then
        match subHandleUpToOrNone fromHandle (depth + 1) with
        | some h => indexInParent h
        | none => 0
      else 0
    let childCount := (childrenAt t curHandle).length
    let maxChildIndex :=
      match toHandle with
      | some th =>
        if isAncestorOrSelf curHandle th then
          match subHandleUpToOrNone th (depth + 1) with
          | some h => indexInParent h + 1
          | none => childCount
        else childCount
      | none => childCount
    let r := splitChildrenRev fuel t curHandle
      ((List.range' minChildIndex (maxChildIndex - minChildIndex)).reverse)
      startOffset endOffset fromHandle toHandle
    match lookupNode r.1 curHandle with
    | some (.container name cs) =>
      let needsRemove := !(curHandle == []) && cs.isEmpty && childCount > 0
      let result := [DomNode.container name r.2]
      if needsRemove then (removeNode r.1 curHandle, result) else (r.1, result)
    | _ => (r.1, [])
termination_by structural fuel => fuel

/-- The child loop of `split_sub_tree_at_container`: indices are supplied in
    reverse order; the extracted children of lower indices are accumulated in
    front, as the Rust loop does. -/
def splitChildrenRev : Nat → DomNode → Handle → List Nat → Nat → Nat →
    Handle → Option Handle → DomNode × List DomNode
  | 0, t, _, _, _, _, _, _ => (t, [])
  | fuel + 1, t, curHandle, is, startOffset, endOffset, fromHandle, toHandle =>
    match is with
    | [] => (t, [])
    | i :: restIs =>
      let r := splitSubTreeAtIndex fuel t (curHandle ++ [i]) startOffset
        endOffset fromHandle toHandle
      let r' := splitChildrenRev fuel r.1 curHandle restIs startOffset
        endOffset fromHandle toHandle
      (r'.1, r'.2 ++ r.2)
termination_by structural fuel => fuel

end

/-- `split_sub_tree`: split at the ancestor of the split start at the given
    depth and wrap the first extracted node as the root of the returned tree
    (`Dom::new_with_root`).  `subtree_children.remove(0)` on an empty vec is a
    fatal error in the source, modelled as `none`.  Returns the remaining
    (left) tree and the extracted (right) tree. -/
def splitSubTree (t : DomNode) (fromHandle : Handle) (startOffset : Nat)
    (toHandle : Option Handle) (endOffset : Nat) (depth : Nat) :
    Option (DomNode × DomNode) :=
  let curHandle := subHandleUpTo fromHandle depth
  let r := splitSubTreeAtIndex (8 * nodeCount t + 64) t curHandle startOffset
    endOffset fromHandle toHandle
  match r.2 with
  | [] => none
  | newSubtree :: _ => some (r.1, newSubtree)

/-- `split_sub_tree_from`: split from the given position to the end of the
    document. -/
def splitSubTreeFrom (t : DomNode) (fromHandle : Handle) (startOffset : Nat)
    (depth : Nat) : Option (DomNode × DomNode) :=
  splitSubTree t fromHandle startOffset none usizeMax depth

end Modern

namespace Legacy

/-- The node type of the legacy generation (`src/crates/wysiwyg/src/dom.rs`):
    generic containers, formatting elements (b, i, u, ...) and text leaves.
    The character type parameter `C` of the source is instantiated with
    UTF-16 code units; the model stores a Lean `String` (lengths agree for
    the ASCII inputs considered below). -/
inductive LNode where
  | container (name : String) (children : List LNode)
  | formatting (name : String) (children : List LNode)
  | text (data : String)

/-- The legacy `Dom`: its document node is a container with an empty name;
    the model keeps just the children.  (The source also maintains a position
    cache — `positions_for_handles` and friends; for a freshly constructed
    `Dom`, which is the only way the developments below build one, the cached
    positions coincide with the absolute positions recomputed by the
    traversal, and the model computes them directly.) -/
structure LDom where
  children : List LNode

mutual

/-- Legacy serialization (`ToHtml` in `dom.rs`): elements with a non-empty
    name print surrounding tags, the document (empty name) prints only its
    children, text prints its data. -/
def lnodeToHtml : LNode → String
  | .text d => d
  | .container name cs =>
    if name = "" then lnodesToHtml cs
    else "<" ++ name ++ ">" ++ lnodesToHtml cs ++ "</" ++ name ++ ">"
  | .formatting name cs =>
    if name = "" then lnodesToHtml cs
    else "<" ++ name ++ ">" ++ lnodesToHtml cs ++ "</" ++ name ++ ">"

/-- Serialization of a list of legacy siblings. -/
def lnodesToHtml : List LNode → String
  | [] => ""
  | c :: cs => lnodeToHtml c ++ lnodesToHtml cs

end

/-- Serialize a legacy Dom (its document node has an empty name). -/
def LDom.toHtml (d : LDom) : String := lnodesToHtml d.children

mutual

/-- The flattened text content of a legacy node: the concatenation of all
    text-node data in document order (no markup). -/
def lnodeFlatText : LNode → String
  | .text d => d
  | .container _ cs => lnodesFlatText cs
  | .formatting _ cs => lnodesFlatText cs

/-- Flattened text of a list of legacy siblings. -/
def lnodesFlatText : List LNode → String
  | [] => ""
  | c :: cs => lnodeFlatText c ++ lnodesFlatText cs

end

/-- Flattened text content of a legacy Dom. -/
def LDom.flatText (d : LDom) : String := lnodesFlatText d.children

/-- Look up the node at a path in a legacy Dom (`Dom::lookup_node`; an
    invalid handle is a fatal error in the source, modelled as `none`). -/
def lookupLNode : LNode → Handle → Option LNode
  | n, [] => some n
  | .text _, _ :: _ => none
  | .container _ cs, i :: rest =>
    match cs.get? i with
    | some c => lookupLNode c rest
    | none => none
  | .formatting _ cs, i :: rest =>
    match cs.get? i with
    | some c => lookupLNode c rest
    | none => none

/-- Look up a node from the document root of a legacy Dom. -/
def LDom.lookupNode (d : LDom) (h : Handle) : Option LNode :=
  lookupLNode (.container "" d.children) h

/-- Replace the element at an index in a list of legacy nodes. -/
def setAtL : List LNode → Nat → LNode → List LNode
  | [], _, _ => []
  | _ :: cs, 0, n => n :: cs
  | c :: cs, i + 1, n => c :: setAtL cs i n

/-- Overwrite the data of the text node at a handle
    (`TextNode::set_data` through `lookup_node_mut`). -/
def setLTextData : LNode → Handle → String → LNode
  | .text _, [], d => .text d
  | n, [], _ => n
  | .text d0, _ :: _, _ => .text d0
  | .container name cs, i :: rest, d =>
    match cs.get? i with
    | some c => .container name (setAtL cs i (setLTextData c rest d))
    | none => .container name cs
  | .formatting name cs, i :: rest, d =>
    match cs.get? i with
    | some c => .formatting name (setAtL cs i (setLTextData c rest d))
    | none => .formatting name cs

/-- Overwrite text-node data at a handle of a legacy Dom. -/
def LDom.setTextData (d : LDom) (h : Handle) (data : String) : LDom :=
  match setLTextData (.container "" d.children) h data with
  | .container _ cs => ⟨cs⟩
  | _ => d

/-! ### `src/crates/wysiwyg/src/dom_traverser.rs`: `find_pos` -/

/-- `NodePosition` (the source's `end` field is named `stop` here because
    `end` is reserved in Lean). -/
structure NodePosition where
  start : Nat
  stop : Nat
deriving DecidableEq, Repr

/-- The legacy `FindResult` of `dom_traverser.rs`. -/
inductive LFindResult where
  | Found (node_handle : Handle) (position : NodePosition) (offset : Nat)
  | NotFound (position : NodePosition)
deriving DecidableEq, Repr

/-- `true` for a `Found` result (`FindResult::is_found`). -/
def LFindResult.isFound : LFindResult → Bool
  | .Found _ _ _ => true
  | .NotFound _ => false

mutual

/-- `Dom::find_pos` of `dom_traverser.rs`: a walk pushing one result per text
    node reached.  A subtree whose entry offset exceeds `e` is pruned (the
    `offset > end` early return).  A text node at running offset `o` of
    length `len` is `Found` iff `start ≤ o + len`, with position
    `[o, o + len)`.  The source advances the per-child offset to
    `results.last().position().end`, which for a freshly constructed `Dom`
    (accurate position cache) is exactly the threaded offset used here. -/
def findPosLNode (n : LNode) (h : Handle) (start e offset : Nat) :
    List LFindResult × Nat :=
  if offset > e then ([], offset)
  else
    match n with
    | .text d =>
      let len := d.length
      if start ≤ offset + len then
        ([.Found h ⟨offset, offset + len⟩
            (if start ≥ offset then start - offset else 0)], offset + len)
      else
        ([.NotFound ⟨offset, offset + len⟩], offset + len)
    | .container _ cs => findPosLChildren cs h 0 start e offset
    | .formatting _ cs => findPosLChildren cs h 0 start e offset

/-- Visit the children of a legacy element in order, threading the offset;
    `i` is the index of the first child in `cs`. -/
def findPosLChildren (cs : List LNode) (h : Handle) (i start e offset : Nat) :
    List LFindResult × Nat :=
  match cs with
  | [] => ([], offset)
  | c :: rest =>
    let r := findPosLNode c (h ++ [i]) start e offset
    let r' := findPosLChildren rest h (i + 1) start e r.2
    (r.1 ++ r'.1, r'.2)

end

/-- Run `find_pos` from the document root of a legacy Dom with offset 0. -/
def LDom.findPos (d : LDom) (start e : Nat) : List LFindResult :=
  (findPosLNode (.container "" d.children) [] start e 0).1

/-! ### `src/crates/wysiwyg/src/dom.rs`: `find_range_mut` -/

/-- `SameNodeRange` of the legacy `dom.rs`. -/
structure LSameNodeRange where
  node_handle : Handle
  start_offset : Nat
  end_offset : Nat
deriving DecidableEq, Repr

/-- The legacy `Range` of `dom.rs`. -/
inductive LRange where
  | SameNode (r : LSameNodeRange)
  | TooDifficultForMe
  | NoNode
deriving DecidableEq, Repr

/-- The `Found` results of the walk over a legacy Dom.  The source filters
    `results` by whether `result.handle()` resolves to a text node; every
    result is produced at a text node, and the repository's own tests
    (`finding_a_range_within_some_nested_node_works`, which yields one
    `NotFound` and one `Found` result and expects `SameNode`) pin the filter
    to keeping exactly the `Found` results, which is what the model does.
    (`FindResult::handle` itself is absent from src.) -/
def LDom.foundResults (d : LDom) (start e : Nat) : List LFindResult :=
  (d.findPos start e).filter LFindResult.isFound

/-- `Dom::find_range_mut`: empty document gives `NoNode`; exactly one `Found`
    text node gives `SameNode` with offsets relative to that node's cached
    position (the `usize` subtractions `start - position.start` and
    `end - position.start` are fatal underflows when the selection precedes
    the node, modelled as `none`); no `Found` result gives `NoNode`; more
    than one gives `TooDifficultForMe`. -/
def LDom.findRangeMut (d : LDom) (start e : Nat) : Option LRange :=
  if d.children.isEmpty then some .NoNode
  else
    match d.foundResults start e with
    | [] => some .NoNode
    | [r] =>
      match r with
      | .Found h pos _ =>
        if start < pos.start || e < pos.start then none
        else some (.SameNode ⟨h, start - pos.start, e - pos.start⟩)
      | .NotFound _ => none
    | _ => some .TooDifficultForMe

/-! ### `src/crates/wysiwyg/src/composer_model.rs`: `ComposerModel` -/

/-- `ComposerState`: one history snapshot.
    Modelled from the spec: the struct itself lives in the absent crate root;
    spec section 3 defines it as an owned snapshot of
    (tree, selection-start, selection-end), matching every use in
    `composer_model.rs`.  `Location` is an integer offset (`backspace`
    decrements it below zero at position 0), modelled as `Int`; the source's
    `end` field is named `stop` here because `end` is reserved in Lean. -/
structure ComposerState where
  dom : LDom
  start : Int
  stop : Int

/-- `ComposerState::new`: the empty document with a collapsed selection at 0.
    Modelled from the spec: "created with one initial empty state". -/
def ComposerState.new : ComposerState := ⟨⟨[]⟩, 0, 0⟩

/-- `ComposerModel`: the linear history (a list of snapshots) plus the cursor
    index into it. -/
structure ComposerModel where
  cur_state_index : Nat
  states : List ComposerState

/-- `ComposerModel::new`. -/
def ComposerModel.new : ComposerModel := ⟨0, [ComposerState.new]⟩

/-- The state the cursor points at (`get_current_state`; the source unwraps,
    a fatal error when the index is out of bounds). -/
def ComposerModel.currentState (m : ComposerModel) : Option ComposerState :=
  m.states.get? m.cur_state_index

/-- The conversion `Location` → `usize` used by `safe_selection`.
    Modelled from the spec: the `Location` impl is absent from src; spec
    section 7 clamps selection offsets to `[0, document length]`, so negative
    locations convert to 0. -/
def locationIntoUsize (l : Int) : Nat := l.toNat

/-- `ComposerModel::safe_selection`, at the level of the current state: both
    offsets are clamped to `[0, html.len()]` — the length of the HTML
    serialization of the tree — and swapped when reversed, so the first
    component is ≤ the second. -/
def safeSelection (st : ComposerState) : Nat × Nat :=
  let html := st.dom.toHtml
  let s := min (locationIntoUsize st.start) html.length
  let e := min (locationIntoUsize st.stop) html.length
  if s > e then (e, s) else (s, e)

/-- `ComposerModel::replace_same_node`: splice `newText` into the text node
    at the resolved handle between the local offsets.  The source's slice
    expressions `text[..start_offset]` and `text[end_offset..]` are fatal
    when an offset exceeds the data length, and a non-text node at the handle
    is a fatal error ("Can't deal with ranges containing non-text nodes");
    both are modelled as `none`. -/
def replaceSameNode (st : ComposerState) (r : LSameNodeRange)
    (newText : String) : Option ComposerState :=
  match st.dom.lookupNode r.node_handle with
  | some (.text d) =>
    if r.start_offset ≤ d.length && r.end_offset ≤ d.length then
      some { st with dom := (st.dom.setTextData r.node_handle
        (d.take r.start_offset ++ newText ++ d.drop r.end_offset)) }
    else none
  | _ => none

/-- `ComposerModel::replace_text_in`: clone the current state, call
    `states.shrink_to(cur_state_index)` — which shrinks only the vector's
    capacity and leaves the list of states unchanged — resolve the range,
    apply the edit to the clone (`SameNode`: splice and put the cursor after
    the inserted text; `NoNode`: append a text node at the end of the
    document and put the cursor at the text's length;
    `TooDifficultForMe`: fatal, "Can't replace_text_in in complex object
    models yet"), then increment the cursor index and push the clone. -/
def replaceTextIn (m : ComposerModel) (newText : String) (start e : Nat) :
    Option ComposerModel :=
  match m.currentState with
  | none => none
  | some cur =>
    match cur.dom.findRangeMut start e with
    | none => none
    | some (.SameNode r) =>
      match replaceSameNode cur r newText with
      | none => none
      | some st =>
        let st := { st with
          start := Int.ofNat (start + newText.length),
          stop := Int.ofNat (start + newText.length) }
        some ⟨m.cur_state_index + 1, m.states ++ [st]⟩
    | some .NoNode =>
      let st := { cur with
        dom := ⟨cur.dom.children ++ [.text newText]⟩,
        start := Int.ofNat newText.length,
        stop := Int.ofNat newText.length }
      some ⟨m.cur_state_index + 1, m.states ++ [st]⟩
    | some .TooDifficultForMe => none

/-- `ComposerModel::undo`: move the cursor back one state when possible,
    otherwise change nothing. -/
def undo (m : ComposerModel) : ComposerModel :=
  if 0 < m.cur_state_index then
    { m with cur_state_index := m.cur_state_index - 1 }
  else m

/-- `ComposerModel::redo`: move the cursor forward one state when it is not
    at the last index (`cur_state_index < states.len() - 1`; the states list
    always holds at least the initial state), otherwise change nothing. -/
def redo (m : ComposerModel) : ComposerModel :=
  if m.cur_state_index < m.states.length - 1 then
    { m with cur_state_index := m.cur_state_index + 1 }
  else m

end Legacy

/-- Un-swap a resolved range for a reversed selection: the `SameNode` offsets
    are swapped, every `MultipleNodes` location is reversed, `NoNode` is
    unchanged (this is the mapping `find_range` applies to its result when
    `end < start`). -/
def Modern.Range.reversedResult : Modern.Range → Modern.Range
  | .SameNode r => .SameNode ⟨r.node_handle, r.end_offset, r.start_offset⟩
  | .MultipleNodes locs => .MultipleNodes (locs.map Modern.DomLocation.reversed)
  | .NoNode => .NoNode

/-! ### Concrete inputs used by the development -/

/-- A valid tree `A<u>x</u>C` (no empty text, no adjacent text siblings). -/
def ex1Tree : Modern.DomNode :=
  Modern.Dom.new [.text "A", .container "u" [.text "x"], .text "C"]

/-- What remains of `ex1Tree` after splitting at offset 0 of the text "x"
    with depth 1: the two texts become adjacent siblings. -/
def ex1Left : Modern.DomNode := Modern.Dom.new [.text "A", .text "C"]

/-- Two adjacent text leaves, boundary at position 3. -/
def ex3Dom : Modern.DomNode := Modern.Dom.new [.text "foo", .text "bar"]

/-- `<b>ab</b>cd<i>ef</i>`: querying `[3, 5)` covers part of "cd" and "ef"
    but nothing inside `<b>`. -/
def ex4Dom : Modern.DomNode :=
  Modern.Dom.new [.container "b" [.text "ab"], .text "cd",
    .container "i" [.text "ef"]]

/-- The locations the walk records for `ex4Dom` on `[3, 5)`. -/
def ex4Locs : List Modern.DomLocation :=
  [{ node_handle := [0], position := 0, start_offset := 3, end_offset := 2,
     length := 2, is_leaf := false },
   { node_handle := [1], position := 2, start_offset := 1, end_offset := 2,
     length := 2, is_leaf := true },
   { node_handle := [2, 0], position := 4, start_offset := 0, end_offset := 1,
     length := 2, is_leaf := true },
   { node_handle := [2], position := 4, start_offset := 0, end_offset := 1,
     length := 2, is_leaf := false }]

/-- A legacy document holding the single text "foo". -/
def ex5Dom : Legacy.LDom := ⟨[.text "foo"]⟩

/-- A legacy composer whose current document is `ex5Dom`, selection (5,5) —
    past the end of the 3-character content. -/
def ex5Model : Legacy.ComposerModel := ⟨0, [⟨ex5Dom, 5, 5⟩]⟩

/-- A one-text-node tree for exercising `delete_nodes`. -/
def ex6Tree : Modern.DomNode := Modern.Dom.new [.text "a"]

/-- `<b>bold</b><i>italic</i>`, the tree of the split scenario. -/
def ex7Tree : Modern.DomNode :=
  Modern.Dom.new [.container "b" [.text "bold"], .container "i" [.text "italic"]]

/-- A legacy state whose document is `<b>a</b>` (flattened text "a", HTML
    serialization of length 8) with a selection far out of range. -/
def ex8State : Legacy.ComposerState :=
  ⟨⟨[.formatting "b" [.text "a"]]⟩, 100, 100⟩

/-- The call sequence edit("a"), edit("b"), undo, edit("c") on a fresh
    composer (each edit is a `replace_text_in` at the cursor). -/
def ex2Seq : Option Legacy.ComposerModel :=
  (Legacy.replaceTextIn Legacy.ComposerModel.new "a" 0 0).bind fun m1 =>
  (Legacy.replaceTextIn m1 "b" 1 1).bind fun m2 =>
  Legacy.replaceTextIn (Legacy.undo m2) "c" 1 1

/-- The call sequence edit("a"), edit("b"), edit("c") on a fresh composer. -/
def ex9Seq : Option Legacy.ComposerModel :=
  (Legacy.replaceTextIn Legacy.ComposerModel.new "a" 0 0).bind fun m1 =>
  (Legacy.replaceTextIn m1 "b" 1 1).bind fun m2 =>
  Legacy.replaceTextIn m2 "c" 2 2

end RichText

section RegressionExamples

/- The examples in this section replay, against the embedding, the behaviour
   the repository's own Rust unit tests assert (find_range.rs,
   dom_traverser.rs, dom_methods.rs, composer_model.rs), validating the
   translation. -/

open RichText.Modern

example :
    findRange (Dom.new [.text "foo", .text "bar"]) 3 3
      = .SameNode { node_handle := [0], start_offset := 3, end_offset := 3 } := rfl

example :
    (doFindPos (Dom.new [.container "b" [.text "ab"], .text "cd",
        .container "i" [.text "ef"]]) [] 3 5 0).1
      = [{ node_handle := [0], position := 0, start_offset := 3, end_offset := 2,
           length := 2, is_leaf := false },
         { node_handle := [1], position := 2, start_offset := 1, end_offset := 2,
           length := 2, is_leaf := true },
         { node_handle := [2, 0], position := 4, start_offset := 0, end_offset := 1,
           length := 2, is_leaf := true },
         { node_handle := [2], position := 4, start_offset := 0, end_offset := 1,
           length := 2, is_leaf := false }] := rfl

-- replicate dom_methods.rs test `split_dom_simple`
example :
    (splitSubTreeFrom
      (Dom.new [.text "Text", .container "b" [.text "bold"],
                .container "i" [.text "italic"]])
      [1, 0] 2 0).map (fun p => (toHtml p.1, toHtml p.2))
    = some ("Text<b>bo</b>", "<b>ld</b><i>italic</i>") := rfl

-- replicate dom_methods.rs test `split_dom_with_nested_formatting`
example :
    (splitSubTreeFrom
      (Dom.new [.container "u" [.text "Text", .container "b" [.text "bold"],
                .container "i" [.text "italic"]]])
      [0, 1, 0] 2 0).map (fun p => (toHtml p.1, toHtml p.2))
    = some ("<u>Text<b>bo</b></u>", "<u><b>ld</b><i>italic</i></u>") := rfl

-- replicate dom_methods.rs test `split_dom_with_nested_formatting_at_sub_level`
example :
    (splitSubTreeFrom
      (Dom.new [.container "u" [.text "Text", .container "b" [.text "bold"],
                .container "i" [.text "italic"]]])
      [0, 1, 0] 2 1).map (fun p => toHtml p.2)
    = some "<u><b>ld</b><i>italic</i></u>" := rfl

-- replicate dom_methods.rs test `split_dom_with_partial_handle`
example :
    (splitSubTreeFrom
      (Dom.new [.container "u" [.text "Text", .container "b" [.text "bold"],
                .container "i" [.text "italic"]]])
      [0, 1] 2 0).map (fun p => (toHtml p.1, toHtml p.2))
    = some ("<u>Text<b>bo</b></u>", "<u><b>ld</b><i>italic</i></u>") := rfl

-- replicate dom_methods.rs test `delete_nodes_refuses_to_delete_root`
example : deleteNodes (Dom.new []) [[]] = (Dom.new [], []) := rfl

-- replicate dom_methods.rs test `delete_nodes_refuses_recursively_to_delete_root`
example : deleteNodes (Dom.new [.text "a"]) [[0]] = (Dom.new [], [[0]]) := rfl

-- splitting at offset 0 one level down leaves two adjacent text siblings
-- in the remaining tree
example :
    (splitSubTreeFrom
      (Dom.new [.text "A", .container "u" [.text "x"], .text "C"])
      [1, 0] 0 1).map (fun p => (p.1, toHtml p.1, toHtml p.2))
    = some (Dom.new [.text "A", .text "C"], "AC", "<u>x</u>") := rfl

-- legacy traversal, replicating dom_traverser.rs tests
example :
    (RichText.Legacy.LDom.findPos ⟨[.text "foo"]⟩ 1 1)
      = [.Found [0] ⟨0, 3⟩ 1] := rfl

example :
    (RichText.Legacy.LDom.findPos ⟨[.text "foo", .text "bar"]⟩ 6 6).getLast?
      = some (.Found [1] ⟨3, 6⟩ 3) := rfl

example :
    RichText.Legacy.LDom.findRangeMut ⟨[.text "foo bar baz"]⟩ 4 7
      = some (.SameNode ⟨[0], 4, 7⟩) := rfl

example :
    RichText.Legacy.LDom.findRangeMut
      ⟨[.text "foo ", .formatting "b" [.text "bar"], .text " baz"]⟩ 5 6
      = some (.SameNode ⟨[1, 0], 1, 2⟩) := rfl

-- boundary cursor resolves two Found text nodes: TooDifficultForMe
example :
    RichText.Legacy.LDom.findRangeMut ⟨[.text "foo", .text "bar"]⟩ 3 3
      = some .TooDifficultForMe := rfl

-- composer replace, replicating `typing_a_character_at_the_end_appends_it`
example :
    (RichText.Legacy.replaceTextIn ⟨0, [⟨⟨[.text "abc"]⟩, 3, 3⟩]⟩ "d" 3 3).bind
        (fun m => m.currentState.map (fun st => (st.dom.toHtml, st.start, st.stop)))
      = some ("abcd", 4, 4) := rfl

-- selection past the end of a nonempty tree completes via NoNode (append)
example :
    (RichText.Legacy.replaceTextIn ⟨0, [⟨⟨[.text "foo"]⟩, 5, 5⟩]⟩ "x" 5 5).bind
        (fun m => m.currentState.map (fun st => st.dom.toHtml))
      = some "foox" := rfl

-- safe_selection clamps to the HTML length (8), not the text length (1)
example :
    RichText.Legacy.safeSelection ⟨⟨[.formatting "b" [.text "a"]]⟩, 100, 100⟩
      = (8, 8) := rfl

end RegressionExamples

namespace RichText

/-- C1: the tree `A<u>x</u>C` satisfies both structural invariants, yet
    `split_sub_tree_from` at offset 0 inside the text "x" with depth 1 moves
    the whole of `<u>x</u>` into the extracted tree, prunes the emptied
    `<u>`, and leaves `A` and `C` as two adjacent sibling text nodes — the
    remaining tree violates the no-adjacent-text-siblings invariant that the
    `dom_methods.rs` module documentation guarantees for its operations. -/
theorem c1_split_leaves_adjacent_text_siblings :
    Modern.domInvariants ex1Tree = true ∧
    Modern.splitSubTreeFrom ex1Tree [1, 0] 0 1
      = some (ex1Left, .container "u" [.text "x"]) ∧
    Modern.hasAdjacentTextSiblings ex1Left = true ∧
    Modern.domInvariants ex1Left = false :=
  ⟨rfl, rfl, rfl, rfl⟩

/-- C2: after edit("a"), edit("b"), undo, edit("c") on a fresh composer,
    all four states are still present — `states.shrink_to` only shrinks the
    vector's capacity, it discards nothing — the cursor sits at index 2 (the
    stale state "ab" from before the undo), and `redo()` is not a no-op: it
    advances the cursor to index 3 (the state "ac" pushed by the last edit). -/
theorem c2_redo_not_noop_after_edit_edit_undo_edit :
    (ex2Seq.map fun m =>
        (m.cur_state_index, m.states.length, (Legacy.redo m).cur_state_index))
      = some (2, 4, 3) ∧
    (ex2Seq.bind fun m => m.currentState.map fun st => st.dom.flatText)
      = some "ab" ∧
    (ex2Seq.bind fun m =>
        (Legacy.redo m).currentState.map fun st => st.dom.flatText)
      = some "ac" :=
  ⟨rfl, rfl, rfl⟩

/-- C7: splitting `<b>bold</b><i>italic</i>` at offset 2 inside the text
    "bold" at depth 0 slices the text node's data — the tree keeps `<b>bo</b>`
    and the extracted tree serializes to `<b>ld</b><i>italic</i>`; the text
    split step itself keeps "bo" in place and emits the node "ld". -/
theorem c7_split_slices_text_scenario :
    (Modern.splitSubTreeFrom ex7Tree [0, 0] 2 0).map
        (fun p => (Modern.toHtml p.1, Modern.toHtml p.2))
      = some ("<b>bo</b>", "<b>ld</b><i>italic</i>") ∧
    Modern.splitSubTreeAtTextNode ex7Tree [0, 0] 2 Modern.usizeMax [0, 0] none
      = (Modern.Dom.new [.container "b" [.text "bo"],
          .container "i" [.text "italic"]], [.text "ld"]) :=
  ⟨rfl, rfl⟩

/-- C9: `undo` moves the cursor back exactly when it is positive and
    otherwise changes nothing; `redo` moves it forward exactly when it is
    below the last index and otherwise changes nothing; and for the sequence
    of three edits "a", "b", "c": after two `undo` calls the current tree is
    the tree after the first edit (the single text "a", as recorded at
    history index 1), and after a further `redo` it is the tree after the
    second edit (the single text "ab", as recorded at history index 2). -/
theorem c9_undo_redo_cursor_moves :
    (∀ m : Legacy.ComposerModel,
        Legacy.undo m = if 0 < m.cur_state_index
          then { m with cur_state_index := m.cur_state_index - 1 } else m) ∧
    (∀ m : Legacy.ComposerModel,
        Legacy.redo m = if m.cur_state_index < m.states.length - 1
          then { m with cur_state_index := m.cur_state_index + 1 } else m) ∧
    (ex9Seq.bind fun m3 =>
        (Legacy.undo (Legacy.undo m3)).currentState.map fun st => st.dom.children)
      = some [Legacy.LNode.text "a"] ∧
    (ex9Seq.bind fun m3 =>
        (Legacy.undo (Legacy.undo m3)).currentState.map fun st => st.dom.children)
      = (ex9Seq.bind fun m3 =>
          (m3.states.get? 1).map fun st => st.dom.children) ∧
    (ex9Seq.bind fun m3 =>
        (Legacy.redo (Legacy.undo (Legacy.undo m3))).currentState.map
          fun st => st.dom.children)
      = some [Legacy.LNode.text "ab"] ∧
    (ex9Seq.bind fun m3 =>
        (Legacy.redo (Legacy.undo (Legacy.undo m3))).currentState.map
          fun st => st.dom.children)
      = (ex9Seq.bind fun m3 =>
          (m3.states.get? 2).map fun st => st.dom.children) :=
  ⟨fun _ => rfl, fun _ => rfl, rfl, rfl, rfl, rfl⟩

/-- C3 counterexample: in `foo` · `bar` the zero-length selection (3,3) at
    the boundary binds to the END of the PRECEDING leaf (handle [0], offsets
    (3,3)), not to the start of the following leaf (handle [1], offsets
    (0,0)) — and nothing about binding to [1] at offset 0 would have left
    the queried interval, which is exactly position 3. -/
theorem c3_counterexample_cursor_at_boundary :
    Modern.findRange ex3Dom 3 3
      = .SameNode { node_handle := [0], start_offset := 3, end_offset := 3 } ∧
    Modern.findRange ex3Dom 3 3
      ≠ .SameNode { node_handle := [1], start_offset := 0, end_offset := 0 } :=
  ⟨rfl, by decide⟩

/-- C4 counterexample: resolving `[3, 5)` over `<b>ab</b>cd<i>ef</i>` records
    a location for the container `<b>` (handle [0]) although none of its
    descendants was included, and that location's offsets (3, 2) are not a
    clipping of any coverage — the start offset exceeds the end offset. -/
theorem c4_counterexample_container_without_included_descendant :
    (Modern.doFindPos ex4Dom [] 3 5 0).1 = ex4Locs ∧
    Modern.findRange ex4Dom 3 5 = .MultipleNodes ex4Locs ∧
    (ex4Locs.any fun l => l.node_handle == [0]) = true ∧
    (ex4Locs.any fun l => Modern.isAncestorOf [0] l.node_handle) = false ∧
    ((ex4Locs.filter fun l => l.node_handle == [0]).all
        fun l => decide (l.end_offset < l.start_offset)) = true :=
  ⟨rfl, rfl, rfl, rfl, rfl⟩

/-- C5 counterexample: on the nonempty document `foo` with the selection
    (5,5) past the end of the content, `replace_text_in` COMPLETES (the range
    resolves to `NoNode`, so the text is appended) — refuting "completes only
    when the selection lies within a single text node or the tree is
    empty". -/
theorem c5_counterexample_completes_on_no_node :
    (Legacy.replaceTextIn ex5Model "x" 5 5).isSome = true ∧
    ex5Dom.children ≠ [] ∧
    Legacy.LDom.findRangeMut ex5Dom 5 5 = some .NoNode ∧
    (Legacy.replaceTextIn ex5Model "x" 5 5).bind
        (fun m => m.currentState.map fun st => st.dom.flatText)
      = some "foox" :=
  ⟨rfl, List.cons_ne_nil _ _, rfl, rfl⟩

/-- C3 amended: for every pair of leaves meeting at a boundary `b ≠ 0`, a
    zero-length selection (b,b) includes the PRECEDING leaf (spanning
    `[offset, b)`, nonempty by the invariant) with offsets (len,len) — its
    end — and excludes the following leaf (starting at `b`); the single
    exception is position 0, where the leaf starting at 0 is included with
    offsets (0,0) — the start of the following leaf. -/
theorem c3_amended_zero_length_boundary_rule
    (preData folData : String) (hPre hFol : Handle) (b offset : Nat)
    (hspan : offset + preData.length = b)
    (hne : preData ≠ "") (hb : b ≠ 0) :
    Modern.processTextNode preData hPre b b offset
      = (some { node_handle := hPre, position := offset,
                start_offset := preData.length, end_offset := preData.length,
                length := preData.length, is_leaf := true }, b) ∧
    Modern.processTextNode folData hFol b b b = (none, b + folData.length) ∧
    Modern.processTextNode folData hFol 0 0 0
      = (some { node_handle := hFol, position := 0, start_offset := 0,
                end_offset := 0, length := folData.length, is_leaf := true },
         folData.length) := by
  have hlen : preData.length ≠ 0 := fun hz => hne (by
    cases preData with
    | mk l => cases l with
      | nil => rfl
      | cons c cs => simp [String.length] at hz)
  subst hspan
  refine ⟨?_, ?_, ?_⟩
  · have h3 : ¬ (offset + preData.length < offset) := by omega
    have hne2 : (offset == offset + preData.length) = false := by
      rw [beq_eq_false_iff_ne]
      omega
    simp [Modern.processTextNode, h3, hne2, Nat.min_self,
      Nat.max_eq_left (Nat.le_add_right offset preData.length),
      Nat.add_sub_cancel_left]
  · have h4 : (offset + preData.length != 0) = true := by
      rw [bne_iff_ne]
      omega
    simp [Modern.processTextNode, h4]
  · simp [Modern.processTextNode]

/-- Witness for the amended C3: instantiated with the leaves "foo" and "bar"
    meeting at boundary 3. -/
theorem c3_amended_zero_length_boundary_rule_witness :
    (0 + ("foo" : String).length = 3 ∧ ("foo" : String) ≠ "" ∧ (3 : Nat) ≠ 0) ∧
    (Modern.processTextNode "foo" [0] 3 3 0
      = (some { node_handle := [0], position := 0, start_offset := 3,
                end_offset := 3, length := 3, is_leaf := true }, 3) ∧
     Modern.processTextNode "bar" [1] 3 3 3 = (none, 6) ∧
     Modern.processTextNode "bar" [1] 0 0 0
      = (some { node_handle := [1], position := 0, start_offset := 0,
                end_offset := 0, length := 3, is_leaf := true }, 3)) :=
  ⟨⟨by decide, by decide, by decide⟩,
   c3_amended_zero_length_boundary_rule "foo" "bar" [0] [1] 3 0
     (by decide) (by decide) (by decide)⟩

/-- C4 amended: the walk prunes any subtree whose entry offset is past the
    queried end; a non-root container that IS reached is always recorded —
    whether or not any descendant was included — as the last location of its
    subtree's result, with offsets `max(start, cs) - cs` and
    `min(end, ce) - cs` over the measured span `[cs, ce)`; the root container
    is never recorded. -/
theorem c4_amended_container_recorded_iff_reached
    (name : String) (cs : List Modern.DomNode) (h : Handle)
    (start e offset : Nat) :
    (e < offset →
      Modern.doFindPos (.container name cs) h start e offset = ([], offset)) ∧
    (offset ≤ e → h ≠ [] →
      Modern.doFindPos (.container name cs) h start e offset
        = ((Modern.doFindPosChildren cs h 0 start e offset).1
            ++ [{ node_handle := h, position := offset,
                  start_offset := max start offset - offset,
                  end_offset :=
                    min e (Modern.doFindPosChildren cs h 0 start e offset).2
                      - offset,
                  length :=
                    (Modern.doFindPosChildren cs h 0 start e offset).2 - offset,
                  is_leaf := false }],
           (Modern.doFindPosChildren cs h 0 start e offset).2)) ∧
    (offset ≤ e →
      Modern.doFindPos (.container name cs) [] start e offset
        = Modern.doFindPosChildren cs [] 0 start e offset) := by
  refine ⟨fun hlt => ?_, fun hle hroot => ?_, fun hle => ?_⟩
  · simp only [Modern.doFindPos]
    rw [if_pos (by omega)]
  · simp only [Modern.doFindPos]
    rw [if_neg (by omega), if_neg hroot]
  · simp only [Modern.doFindPos]
    rw [if_neg (by omega : ¬ offset > e)]
    simp

/-- Witness for the amended C4: the container `<b>ab</b>` of `ex4Dom` on the
    interval `[3, 5)` — reached with offset 0 ≤ 5, recorded although its only
    child is excluded. -/
theorem c4_amended_container_recorded_iff_reached_witness :
    ((0 : Nat) ≤ 5 ∧ ([0] : Handle) ≠ []) ∧
    Modern.doFindPos (.container "b" [.text "ab"]) [0] 3 5 0
      = ((Modern.doFindPosChildren [Modern.DomNode.text "ab"] [0] 0 3 5 0).1
          ++ [{ node_handle := [0], position := 0,
                start_offset := max 3 0 - 0,
                end_offset :=
                  min 5 (Modern.doFindPosChildren [Modern.DomNode.text "ab"]
                    [0] 0 3 5 0).2 - 0,
                length :=
                  (Modern.doFindPosChildren [Modern.DomNode.text "ab"]
                    [0] 0 3 5 0).2 - 0,
                is_leaf := false }],
         (Modern.doFindPosChildren [Modern.DomNode.text "ab"] [0] 0 3 5 0).2) :=
  ⟨⟨by decide, by decide⟩,
   (c4_amended_container_recorded_iff_reached "b" [.text "ab"] [0] 3 5 0).2.1
     (by decide) (by decide)⟩

/-- C8 amended, part 1: `safe_selection` returns an ordered pair bounded by
    the length of the HTML serialization of the tree; part 2: `find_range` on
    a reversed selection equals the resolution of the swapped selection with
    every returned location reversed back. -/
theorem c8_amended_selection_normalization :
    (∀ st : Legacy.ComposerState,
        (Legacy.safeSelection st).1 ≤ (Legacy.safeSelection st).2 ∧
        (Legacy.safeSelection st).2 ≤ (Legacy.LDom.toHtml st.dom).length) ∧
    (∀ (d : Modern.DomNode) (s e : Nat), e < s →
        Modern.findRange d s e = (Modern.findRange d e s).reversedResult) := by
  constructor
  · intro st
    simp only [Legacy.safeSelection]
    constructor
    · split <;> omega
    · split <;> simp [Nat.min_le_right]
  · intro d s e hlt
    have h1 : (e < s) = True := eq_true hlt
    have h2 : (s < e) = False := eq_false (by omega)
    simp only [Modern.findRange, h1, h2, ite_true, ite_false]
    by_cases hemp : (Modern.Dom.topChildren d).isEmpty = true
    · simp [hemp, Modern.Range.reversedResult]
    · simp only [Bool.not_eq_true] at hemp
      simp only [hemp, Bool.false_eq_true, ite_false]
      cases hfp : Modern.findPos d e s with
      | NotFound => simp [Modern.Range.reversedResult]
      | Found locations =>
        cases hleaf : locations.filter (fun l => l.is_leaf) with
        | nil => simp [hleaf, Modern.Range.reversedResult]
        | cons l0 tail =>
          cases tail with
          | nil =>
            simp [hleaf, Modern.Range.reversedResult, Modern.DomLocation.reversed]
          | cons l1 tail' =>
            simp [hleaf, Modern.Range.reversedResult]

/-- Witness for the amended C8: the out-of-range state `<b>a</b>`/(100,100)
    and the reversed selection (3,1) over `foo`·`bar`. -/
theorem c8_amended_selection_normalization_witness :
    ((Legacy.safeSelection ex8State).1 ≤ (Legacy.safeSelection ex8State).2 ∧
     (Legacy.safeSelection ex8State).2 ≤ (Legacy.LDom.toHtml ex8State.dom).length) ∧
    ((1 : Nat) < 3 ∧
     Modern.findRange ex3Dom 3 1 = (Modern.findRange ex3Dom 1 3).reversedResult) :=
  ⟨c8_amended_selection_normalization.1 ex8State,
   by decide,
   c8_amended_selection_normalization.2 ex3Dom 3 1 (by decide)⟩

/-- C10: when the current document is empty the range resolves to no node
    whatever the offsets are, so `replace_text_in` appends the text at the
    end of the document and sets both selection ends to the text's length;
    with a linear history (cursor at the last state) the pushed state is the
    new current state, its flattened text being exactly the inserted text. -/
theorem c10_replace_in_empty_tree_appends
    (m : Legacy.ComposerModel) (st : Legacy.ComposerState) (t : String)
    (s e : Nat)
    (hcur : m.currentState = some st) (hemp : st.dom.children = [])
    (_hne : t ≠ "") (hlin : m.cur_state_index + 1 = m.states.length) :
    (Legacy.replaceTextIn m t s e).bind Legacy.ComposerModel.currentState
      = some ⟨⟨[Legacy.LNode.text t]⟩, Int.ofNat t.length, Int.ofNat t.length⟩
    ∧ Legacy.LDom.flatText ⟨[Legacy.LNode.text t]⟩ = t := by
  constructor
  · obtain ⟨dom, sStart, sStop⟩ := st
    obtain ⟨children⟩ := dom
    simp only at hemp
    subst hemp
    simp only [Legacy.replaceTextIn, hcur]
    have hrange : Legacy.LDom.findRangeMut ⟨[]⟩ s e = some .NoNode := by
      simp [Legacy.LDom.findRangeMut]
    rw [hrange]
    simp only [Option.bind, Legacy.ComposerModel.currentState]
    rw [hlin]
    rw [List.get?_eq_getElem?, List.getElem?_concat_length]
    simp
  · simp [Legacy.LDom.flatText, Legacy.lnodesFlatText, Legacy.lnodeFlatText]

/-- Witness for C10: `replace_text("v", 0, 0)` on a fresh composer yields the
    flattened text "v" with selection (1, 1). -/
theorem c10_replace_in_empty_tree_appends_witness :
    (Legacy.ComposerModel.new.currentState = some Legacy.ComposerState.new ∧
     Legacy.ComposerState.new.dom.children = [] ∧ ("v" : String) ≠ "" ∧
     Legacy.ComposerModel.new.cur_state_index + 1
       = Legacy.ComposerModel.new.states.length) ∧
    ((Legacy.replaceTextIn Legacy.ComposerModel.new "v" 0 0).bind
        Legacy.ComposerModel.currentState
      = some ⟨⟨[Legacy.LNode.text "v"]⟩, Int.ofNat ("v" : String).length,
              Int.ofNat ("v" : String).length⟩ ∧
     Legacy.LDom.flatText ⟨[Legacy.LNode.text "v"]⟩ = "v") :=
  ⟨⟨rfl, rfl, by decide, rfl⟩,
   c10_replace_in_empty_tree_appends Legacy.ComposerModel.new
     Legacy.ComposerState.new "v" 0 0 rfl rfl (by decide) rfl⟩

/-- C5 amended: `replace_text_in` completes exactly when the range resolves
    to a single text node whose local offsets are within its data, or to no
    text node at all (in which case the text is appended); it panics exactly
    otherwise — on `TooDifficultForMe` (which holds iff the document is
    nonempty and at least two text nodes were resolved) or on out-of-bounds
    same-node offsets. -/
theorem c5_amended_panic_characterization
    (m : Legacy.ComposerModel) (st : Legacy.ComposerState)
    (t : String) (s e : Nat) (hcur : m.currentState = some st) :
    ((Legacy.replaceTextIn m t s e).isSome = true ↔
      (st.dom.findRangeMut s e = some .NoNode ∨
       ∃ h so eo d, st.dom.findRangeMut s e = some (.SameNode ⟨h, so, eo⟩) ∧
         st.dom.lookupNode h = some (.text d) ∧
         so ≤ d.length ∧ eo ≤ d.length)) ∧
    (st.dom.findRangeMut s e = some .TooDifficultForMe ↔
      st.dom.children ≠ [] ∧ 2 ≤ (st.dom.foundResults s e).length) := by
  constructor
  · simp only [Legacy.replaceTextIn, hcur]
    cases hr : st.dom.findRangeMut s e with
    | none => simp [hr]
    | some rg =>
      cases rg with
      | NoNode => simp
      | TooDifficultForMe => simp
      | SameNode r =>
        obtain ⟨h0, so0, eo0⟩ := r
        cases hlk : st.dom.lookupNode h0 with
        | none => simp [Legacy.replaceSameNode, hlk]
        | some n =>
          cases n with
          | text d =>
            by_cases hb : so0 ≤ d.length ∧ eo0 ≤ d.length
            · have hbb : (decide (so0 ≤ d.length)
                  && decide (eo0 ≤ d.length)) = true := by simpa using hb
              simp only [Legacy.replaceSameNode, hlk, hbb, if_true,
                Option.isSome_some, true_iff]
              right
              exact ⟨h0, so0, eo0, d, rfl, hlk, hb.1, hb.2⟩
            · have hbb : (decide (so0 ≤ d.length)
                  && decide (eo0 ≤ d.length)) = false := by
                simpa using fun h1 h2 => hb ⟨h1, h2⟩
              simp only [Legacy.replaceSameNode, hlk, hbb, Bool.false_eq_true,
                if_false, Option.isSome_none, false_iff, not_or]
              constructor
              · simp
              · rintro ⟨h, so, eo, d', heq, hlk', h1, h2⟩
                simp only [Option.some.injEq, Legacy.LRange.SameNode.injEq,
                  Legacy.LSameNodeRange.mk.injEq] at heq
                obtain ⟨rfl, rfl, rfl⟩ := heq
                rw [hlk] at hlk'
                simp only [Option.some.injEq, Legacy.LNode.text.injEq] at hlk'
                subst hlk'
                exact hb ⟨h1, h2⟩
          | container name cs =>
            simp only [Legacy.replaceSameNode, hlk, Option.isSome_none,
              Bool.false_eq_true, false_iff, not_or]
            constructor
            · simp
            · rintro ⟨h, so, eo, d', heq, hlk', _, _⟩
              simp only [Option.some.injEq, Legacy.LRange.SameNode.injEq,
                Legacy.LSameNodeRange.mk.injEq] at heq
              obtain ⟨rfl, rfl, rfl⟩ := heq
              rw [hlk] at hlk'
              simp at hlk'
          | formatting name cs =>
            simp only [Legacy.replaceSameNode, hlk, Option.isSome_none,
              Bool.false_eq_true, false_iff, not_or]
            constructor
            · simp
            · rintro ⟨h, so, eo, d', heq, hlk', _, _⟩
              simp only [Option.some.injEq, Legacy.LRange.SameNode.injEq,
                Legacy.LSameNodeRange.mk.injEq] at heq
              obtain ⟨rfl, rfl, rfl⟩ := heq
              rw [hlk] at hlk'
              simp at hlk'
  · simp only [Legacy.LDom.findRangeMut]
    by_cases hemp : st.dom.children.isEmpty = true
    · rw [if_pos hemp]
      simp only [List.isEmpty_iff] at hemp
      simp [hemp]
    · rw [if_neg hemp]
      simp only [List.isEmpty_iff, ← ne_eq] at hemp
      cases hfr : st.dom.foundResults s e with
      | nil => simp
      | cons r rest =>
        cases rest with
        | nil =>
          cases r with
          | Found h pos off =>
            dsimp only
            refine iff_of_false ?_ ?_
            · intro hx
              split at hx
              · exact Option.noConfusion hx
              · simp at hx
            · rintro ⟨_, hlen⟩
              simp at hlen
          | NotFound pos => simp
        | cons r' rest' =>
          dsimp only
          simp only [true_iff, List.length_cons]
          exact ⟨hemp, by omega⟩

/-- Witness for the amended C5: the past-the-end selection on `foo`
    resolves to no text node and the call completes. -/
theorem c5_amended_panic_characterization_witness :
    (ex5Model.currentState = some ⟨ex5Dom, 5, 5⟩) ∧
    (((Legacy.replaceTextIn ex5Model "x" 5 5).isSome = true ↔
      (Legacy.LDom.findRangeMut ex5Dom 5 5 = some .NoNode ∨
       ∃ h so eo d, Legacy.LDom.findRangeMut ex5Dom 5 5
           = some (.SameNode ⟨h, so, eo⟩) ∧
         Legacy.LDom.lookupNode ex5Dom h = some (.text d) ∧
         so ≤ d.length ∧ eo ≤ d.length)) ∧
    (Legacy.LDom.findRangeMut ex5Dom 5 5 = some .TooDifficultForMe ↔
      ex5Dom.children ≠ [] ∧ 2 ≤ (Legacy.LDom.foundResults ex5Dom 5 5).length)) :=
  ⟨rfl, c5_amended_panic_characterization ex5Model ⟨ex5Dom, 5, 5⟩ "x" 5 5 rfl⟩

/-- An element of `dropLast` is an element of the list. -/
theorem mem_of_mem_dropLast {α : Type} : ∀ {l : List α} {x : α},
    x ∈ l.dropLast → x ∈ l
  | [], _, hm => by simp at hm
  | [a], _, hm => by simp at hm
  | a :: b :: rest, x, hm => by
    rw [List.dropLast_cons₂] at hm
    rcases List.mem_cons.mp hm with h | h
    · exact h ▸ List.mem_cons_self a _
    · exact List.mem_cons_of_mem a (mem_of_mem_dropLast h)

/-- The element `getLast?` returns is an element of the list. -/
theorem mem_of_getLastQ {α : Type} : ∀ {l : List α} {x : α},
    l.getLast? = some x → x ∈ l
  | [], _, hm => by simp at hm
  | [a], x, hm => by
    simp only [List.getLast?_singleton, Option.some.injEq] at hm
    simp [hm]
  | a :: b :: rest, x, hm => by
    rw [List.getLast?_cons_cons] at hm
    exact List.mem_cons_of_mem a (mem_of_getLastQ hm)

/-- The empty path is a prefix of every path. -/
theorem nilIsPrefixOf : ∀ l : Handle, List.isPrefixOf [] l = true
  | [] => rfl
  | _ :: _ => rfl

/-- `isPrefixOf` is reflexive. -/
theorem isPrefixOfRefl : ∀ l : Handle, l.isPrefixOf l = true
  | [] => rfl
  | a :: rest => by simp [List.isPrefixOf, isPrefixOfRefl rest]

/-- `isPrefixOf` is transitive. -/
theorem isPrefixOfTrans : ∀ {a b c : Handle},
    a.isPrefixOf b = true → b.isPrefixOf c = true → a.isPrefixOf c = true
  | [], _, c, _, _ => nilIsPrefixOf c
  | _ :: _, [], _, hab, _ => by simp [List.isPrefixOf] at hab
  | _ :: _, _ :: _, [], _, hbc => by simp [List.isPrefixOf] at hbc
  | a :: as, b :: bs, c :: cs, hab, hbc => by
    simp only [List.isPrefixOf, Bool.and_eq_true, beq_iff_eq] at hab hbc ⊢
    exact ⟨hab.1.trans hbc.1, isPrefixOfTrans hab.2 hbc.2⟩

/-- `dropLast` of a path is a prefix of the path. -/
theorem dropLastIsPrefixOf : ∀ l : Handle, l.dropLast.isPrefixOf l = true
  | [] => rfl
  | [_] => rfl
  | a :: b :: rest => by
    rw [List.dropLast_cons₂]
    simp only [List.isPrefixOf, Bool.and_eq_true, beq_iff_eq]
    exact ⟨by trivial, dropLastIsPrefixOf (b :: rest)⟩

/-- Membership through `insertHandle`. -/
theorem mem_insertHandle {x h : Handle} : ∀ {l : List Handle},
    x ∈ Modern.insertHandle h l ↔ x = h ∨ x ∈ l := by
  intro l
  induction l with
  | nil => simp [Modern.insertHandle]
  | cons h0 rest ih =>
    simp only [Modern.insertHandle]
    split
    · simp [List.mem_cons]
    · simp only [List.mem_cons, ih]
      tauto

/-- Sorting by document order preserves membership. -/
theorem mem_sortHandles {x : Handle} : ∀ {hs : List Handle},
    x ∈ Modern.sortHandles hs ↔ x ∈ hs := by
  intro hs
  induction hs with
  | nil => simp [Modern.sortHandles]
  | cons h0 rest ih =>
    simp only [Modern.sortHandles, List.foldr_cons] at ih ⊢
    rw [mem_insertHandle, ih, List.mem_cons]

/-- Any property of handles closed under taking the parent holds for every
    handle the `delete_nodes` loop deletes, provided it holds on the queue
    and on the already-deleted list. -/
theorem deleteNodesGo_deleted_invariant (Q : Handle → Prop)
    (hQ : ∀ h, Q h → Q h.dropLast) :
    ∀ (fuel : Nat) (t : Modern.DomNode) (q d : List Handle),
      (∀ h ∈ q, Q h) → (∀ h ∈ d, Q h) →
      ∀ h ∈ (Modern.deleteNodesGo fuel t q d).2, Q h := by
  intro fuel
  induction fuel with
  | zero => intro t q d _ hd; exact hd
  | succ fuel ih =>
    intro t q d hq hd
    simp only [Modern.deleteNodesGo]
    cases hlast : q.getLast? with
    | none => exact hd
    | some h0 =>
      have hh0 : Q h0 := hq h0 (mem_of_getLastQ hlast)
      have hrest : ∀ h ∈ q.dropLast, Q h :=
        fun h hm => hq h (mem_of_mem_dropLast hm)
      dsimp only
      by_cases hroot : h0 = []
      · rw [if_pos hroot]
        exact ih t _ d hrest hd
      · rw [if_neg hroot]
        refine ih _ _ _ ?_ ?_
        · intro h hm
          split at hm
          · rcases List.mem_append.mp hm with hm' | hm'
            · exact hrest h hm'
            · rw [List.mem_singleton.mp hm']
              exact hQ h0 hh0
          · exact hrest h hm
        · intro h hm
          rcases List.mem_append.mp hm with hm' | hm'
          · exact hd h hm'
          · rw [List.mem_singleton.mp hm']
            exact hh0

/-- The `delete_nodes` loop never records the root handle as deleted. -/
theorem deleteNodesGo_no_root :
    ∀ (fuel : Nat) (t : Modern.DomNode) (q d : List Handle),
      (∀ h ∈ d, h ≠ []) →
      ∀ h ∈ (Modern.deleteNodesGo fuel t q d).2, h ≠ [] := by
  intro fuel
  induction fuel with
  | zero => intro t q d hd; exact hd
  | succ fuel ih =>
    intro t q d hd
    simp only [Modern.deleteNodesGo]
    cases hlast : q.getLast? with
    | none => exact hd
    | some h0 =>
      dsimp only
      by_cases hroot : h0 = []
      · rw [if_pos hroot]
        exact ih t _ d hd
      · rw [if_neg hroot]
        refine ih _ _ _ ?_
        intro h hm
        rcases List.mem_append.mp hm with hm' | hm'
        · exact hd h hm'
        · rw [List.mem_singleton.mp hm']
          exact hroot

/-- The tree the `delete_nodes` loop returns is the input tree with the
    recorded deletions applied in order. -/
theorem deleteNodesGo_fold :
    ∀ (fuel : Nat) (t : Modern.DomNode) (q d : List Handle),
      ∃ δ, Modern.deleteNodesGo fuel t q d
        = (δ.foldl (fun tr h => Modern.removeNode tr h) t, d ++ δ) := by
  intro fuel
  induction fuel with
  | zero => intro t q d; exact ⟨[], by simp [Modern.deleteNodesGo]⟩
  | succ fuel ih =>
    intro t q d
    simp only [Modern.deleteNodesGo]
    cases hlast : q.getLast? with
    | none => exact ⟨[], by simp⟩
    | some h0 =>
      dsimp only
      by_cases hroot : h0 = []
      · rw [if_pos hroot]
        exact ih t _ d
      · rw [if_neg hroot]
        obtain ⟨δ, hδ⟩ := ih (Modern.removeNode t h0)
          (if (Modern.containerEmptyAt (Modern.removeNode t h0) h0.dropLast
                && !(q.dropLast.contains h0.dropLast)
                && !((d ++ [h0]).contains h0.dropLast)) = true then
             q.dropLast ++ [h0.dropLast] else q.dropLast)
          (d ++ [h0])
        exact ⟨h0 :: δ, by rw [hδ]; simp⟩

/-- C6: `delete_nodes` (over the working set sorted by document order, with
    deepest-last popping and empty-parent enqueueing) never deletes the root
    handle; the tree it returns is exactly the input tree with the returned
    deletions applied in order — the returned list is precisely what was
    deleted; and every deleted handle is one of the requested handles or an
    ancestor (path prefix) of one — the parents that became empty. -/
theorem c6_delete_nodes_properties (t : Modern.DomNode) (hs : List Handle) :
    (∀ h ∈ (Modern.deleteNodes t hs).2, h ≠ []) ∧
    (Modern.deleteNodes t hs).1
      = (Modern.deleteNodes t hs).2.foldl
          (fun tr h => Modern.removeNode tr h) t ∧
    (∀ h ∈ (Modern.deleteNodes t hs).2, ∃ h0 ∈ hs, h.isPrefixOf h0 = true) := by
  refine ⟨?_, ?_, ?_⟩
  · exact deleteNodesGo_no_root _ t (Modern.sortHandles hs) [] (by simp)
  · obtain ⟨δ, hδ⟩ := deleteNodesGo_fold (Modern.nodeCount t + hs.length + 1)
      t (Modern.sortHandles hs) []
    unfold Modern.deleteNodes
    rw [hδ]
    simp
  · refine deleteNodesGo_deleted_invariant
      (fun h => ∃ h0 ∈ hs, h.isPrefixOf h0 = true) ?_ _ t
      (Modern.sortHandles hs) [] ?_ (by simp)
    · rintro h ⟨h0, hm, hpre⟩
      exact ⟨h0, hm, isPrefixOfTrans (dropLastIsPrefixOf h) hpre⟩
    · intro h hm
      exact ⟨h, mem_sortHandles.mp hm, isPrefixOfRefl h⟩

/-- Witness for C6 at the one-node tree and the request `[[0]]`: the handle
    `[0]` is deleted, is not the root, is a prefix of a requested handle, and
    the returned tree is the fold of the deletions. -/
theorem c6_delete_nodes_properties_witness :
    ([0] ∈ (Modern.deleteNodes ex6Tree [[0]]).2) ∧
    (([0] : Handle) ≠ [] ∧
     (Modern.deleteNodes ex6Tree [[0]]).1
       = (Modern.deleteNodes ex6Tree [[0]]).2.foldl
           (fun tr h => Modern.removeNode tr h) ex6Tree ∧
     ∃ h0 ∈ [[0]], ([0] : Handle).isPrefixOf h0 = true) :=
  ⟨by decide,
   (c6_delete_nodes_properties ex6Tree [[0]]).1 [0] (by decide),
   (c6_delete_nodes_properties ex6Tree [[0]]).2.1,
   (c6_delete_nodes_properties ex6Tree [[0]]).2.2 [0] (by decide)⟩

/-- C8 counterexample: for the state `<b>a</b>` with selection (100, 100),
    `safe_selection` clamps to (8, 8) — the length of the HTML serialization
    `<b>a</b>` — and not to the document's flattened text length 1. -/
theorem c8_counterexample_clamp_uses_serialized_length :
    Legacy.safeSelection ex8State = (8, 8) ∧
    (Legacy.LDom.toHtml ex8State.dom).length = 8 ∧
    (Legacy.LDom.flatText ex8State.dom).length = 1 ∧
    ¬((Legacy.safeSelection ex8State).2 ≤ (Legacy.LDom.flatText ex8State.dom).length) :=
  ⟨rfl, rfl, rfl, by decide⟩

end RichText
